import Mathlib

/-!
Shallow embedding of the `monotonic` repository (arena-style chunked
vectors): `src/monovec.rs` (`MonoVec`), `src/chain/chain.rs` (`Chain`),
`src/zone.rs` (`Zone`/`Quota`), `src/hetvec.rs` (`HetVec`).

Machine integers (`usize`) are modelled as `Nat` with explicit bounds
against `usizeMax`; the checked arithmetic of the source
(`checked_mul`/`checked_add` followed by `.unwrap()`, which panics on
overflow) is modelled by `Option`-returning functions where `none`
stands for the panic/abort.

A raw pointer into a chunk is modelled as a pair `(chunk id, element
offset)`.  Chunk ids are allocation identities: the raw memory provider
never returns overlapping blocks and chunks are never freed during the
vector's lifetime, so distinct live chunks have distinct addresses and
pointer equality coincides with id/offset equality.
-/

/-- Maximum value of `usize` on the 64-bit targets the crate builds for. -/
def usizeMax : Nat := 2 ^ 64 - 1

/-- Rust `usize::checked_mul`: `none` models the arithmetic-overflow case
(`unwrap` on it is a panic). -/
def checked_mul (a b : Nat) : Option Nat :=
  if a * b ≤ usizeMax then some (a * b) else none

/-- Rust `usize::checked_add`. -/
def checked_add (a b : Nat) : Option Nat :=
  if a + b ≤ usizeMax then some (a + b) else none

/-- A chunk of backing storage (`struct Chunk<T>` in monovec.rs/chain.rs:
`prev`/`next` links, `len`, `cap`, then `cap` slots of raw storage).
The links are represented by the position of the chunk inside the
containing chain's list; `id` is the allocation identity (the address of
the block returned by `heap::allocate`).  `buf` models the raw item
storage: one cell per slot, `none` = uninitialized. -/
structure Chunk (α : Type) where
  id : Nat
  cap : Nat
  len : Nat
  buf : List (Option α)
deriving DecidableEq

/-- `Chunk::new(cap)`: fresh allocation, `len = 0`, `cap` as given, all
storage uninitialized.  (The source also computes
`mem_size(cap) = size_of::<Chunk<T>>() + cap * size_of::<T>()` with
checked arithmetic — that byte-level computation is modelled separately
by `Chunk.mem_size_bytes` below.) -/
def Chunk.new (α : Type) (id cap : Nat) : Chunk α :=
  ⟨id, cap, 0, List.replicate cap none⟩

/-- `MonoVec<T>` and `Chain<T>` have the same state: a head/tail chain of
chunks.  We keep the non-tail chunks (head first) in `init` and the tail
separately; `nextId` produces fresh allocation identities. -/
structure Chain (α : Type) where
  init : List (Chunk α)
  tail : Chunk α
  nextId : Nat
deriving DecidableEq

namespace Chain

/-- All chunks in link order, head first, tail last. -/
def chunks {α : Type} (c : Chain α) : List (Chunk α) :=
  c.init ++ [c.tail]

/-- `MonoVec::with_capacity` / `Chain::with_capacity`: one chunk of
capacity `max cap 1` which is both head and tail. -/
def with_capacity (α : Type) (cap : Nat) : Chain α :=
  ⟨[], Chunk.new α 0 (max cap 1), 1⟩

/-- The `while new_cap < len { new_cap = new_cap.checked_mul(2).unwrap() }`
loop of `reserve` (monovec.rs 96-98, chain.rs 98-100), with `checked_mul`
inlined.  The `new_cap = 0` guard marks a state in which the source loop
would run forever; it is unreachable because every chunk capacity is at
least 1. -/
def grow_loop (len : Nat) (new_cap : Nat) : Option Nat :=
  if new_cap < len then
    if new_cap * 2 ≤ usizeMax then
      if new_cap = 0 then none
      else grow_loop len (new_cap * 2)
    else none
  else some new_cap
termination_by len - new_cap
decreasing_by
  rename_i h _ h0
  have h1 : 0 < new_cap := Nat.pos_of_ne_zero h0
  omega

/-- `MonoVec::reserve` (monovec.rs 88-111) and `Chain::reserve`
(chain.rs 90-113), which are textually identical: if the tail chunk has
fewer than `len` free slots, grow capacity exponentially
(`cap.checked_mul(2).unwrap()` then the doubling loop), allocate a chunk
of the resulting capacity and link it as the new tail; finally return a
pointer to the free space of the (possibly new) tail together with the
whole free capacity there.  `none` models the panic on arithmetic
overflow. -/
def reserve {α : Type} (c : Chain α) (len : Nat) : Option (Chain α × (Nat × Nat) × Nat) :=
  let grown : Option (Chain α) :=
    if c.tail.cap - c.tail.len < len then
      if c.tail.cap * 2 ≤ usizeMax then
        match grow_loop len (c.tail.cap * 2) with
        | none => none
        | some new_cap => some ⟨c.init ++ [c.tail], Chunk.new α c.nextId new_cap, c.nextId + 1⟩
      else none
    else some c
  match grown with
  | none => none
  | some c' => some (c', (c'.tail.id, c'.tail.len), c'.tail.cap - c'.tail.len)

/-- `Chain::add_len` (chain.rs 117-120): unchecked `(*tail).len += len`. -/
def add_len {α : Type} (c : Chain α) (len : Nat) : Chain α :=
  ⟨c.init, ⟨c.tail.id, c.tail.cap, c.tail.len + len, c.tail.buf⟩, c.nextId⟩

/-- `ptr::write` through a raw pointer `(chunk id, offset)`: store the
value in that cell of the designated chunk.  (Raw writes do not touch
`len`.) -/
def writeAt {α : Type} (c : Chain α) (p : Nat × Nat) (v : α) : Chain α :=
  if c.tail.id = p.1 then
    ⟨c.init, ⟨c.tail.id, c.tail.cap, c.tail.len, c.tail.buf.set p.2 (some v)⟩, c.nextId⟩
  else
    ⟨c.init.map (fun ch => if ch.id = p.1 then ⟨ch.id, ch.cap, ch.len, ch.buf.set p.2 (some v)⟩ else ch),
     c.tail, c.nextId⟩

/-- Dereference a pointer `(chunk id, offset)`: `some v` iff the cell
exists and holds a written value. -/
def readAt {α : Type} (c : Chain α) (p : Nat × Nat) : Option α :=
  match (c.chunks).find? (fun ch => ch.id = p.1) with
  | none => none
  | some ch =>
    match ch.buf[p.2]? with
    | some (some v) => some v
    | _ => none

/-- `Chain::push` (chain.rs 130-138): `reserve(1)`, `ptr::write`,
`add_len(1)`; returns the written pointer (the `&*ptr` reference). -/
def push {α : Type} (c : Chain α) (v : α) : Option (Chain α × (Nat × Nat)) :=
  match reserve c 1 with
  | none => none
  | some (c', p, _) => some (add_len (writeAt c' p v) 1, p)

/-- `Chain::shrink_len` (chain.rs 122-128): if `ptr + old_len` is the
tail's current write position (`items + len`), retract the tail length to
`len - old_len + new_len`; otherwise do nothing. -/
def shrink_len {α : Type} (c : Chain α) (p : Nat × Nat) (old_len new_len : Nat) : Chain α :=
  if p.1 = c.tail.id ∧ p.2 + old_len = c.tail.len then
    ⟨c.init, ⟨c.tail.id, c.tail.cap, c.tail.len - old_len + new_len, c.tail.buf⟩, c.nextId⟩
  else c

end Chain

namespace MonoVec

/-- `MonoVec::add_len` (monovec.rs 115-118):
`(*tail).len = len.checked_add((*tail).len).unwrap()` — unlike
`Chain::add_len` this addition is checked. -/
def add_len {α : Type} (c : Chain α) (len : Nat) : Option (Chain α) :=
  match checked_add len c.tail.len with
  | none => none
  | some l => some ⟨c.init, ⟨c.tail.id, c.tail.cap, l, c.tail.buf⟩, c.nextId⟩

/-- `MonoVec::push` (monovec.rs 120-128): `reserve(1)`, `ptr::write`,
checked `add_len(1)`.  `MonoVec::reserve` is textually identical to
`Chain::reserve`, so the latter's model is reused. -/
def push {α : Type} (c : Chain α) (v : α) : Option (Chain α × (Nat × Nat)) :=
  match Chain.reserve c 1 with
  | none => none
  | some (c', p, _) =>
    match add_len (Chain.writeAt c' p v) 1 with
    | none => none
    | some c2 => some (c2, p)

end MonoVec

namespace Chain

/-- The populated region of one chunk, as yielded by the `Chunks`
iterator (`slice::from_raw_parts(items, len)`, chain.rs 314 /
monovec.rs 255): the first `len` cells read back.  (In every state
produced through the safe API these cells are initialized; `filterMap`
simply drops the `Option` wrapper of the storage model.) -/
def itemsList {α : Type} (ch : Chunk α) : List α :=
  (ch.buf.take ch.len).filterMap id

/-- The `Chunks` iterator (chain.rs 299-318 / monovec.rs 240-259): each
chunk's populated slice, in link order, head chunk first. -/
def chunksSlices {α : Type} (c : Chain α) : List (List α) :=
  (c.chunks).map itemsList

/-- Forward iteration, `Chain::iter` / `MonoVec::items`
(`chunks().flat_map(id)`, chain.rs 198-202 / monovec.rs 154-158): the
chunk slices flattened in link order. -/
def iterList {α : Type} (c : Chain α) : List α :=
  (chunksSlices c).flatten

/-- Backward iteration: `DoubleEndedIterator::next_back` on
`Iter`/`Chunks` (chain.rs 323-340, 401-405) yields the chunks from tail
to head (following `prev` links) and, through `FlatMap`'s back iterator,
the elements of each slice from back to front. -/
def iterBackList {α : Type} (c : Chain α) : List α :=
  ((chunksSlices c).reverse.map List.reverse).flatten

/-- The client-visible mutating operations of C1's statement. -/
inductive Op (α : Type) where
  | push (v : α)
  | reserve (n : Nat)
  | add_len (n : Nat)
deriving DecidableEq

/-- Apply one operation, discarding the returned pointer/capacity;
`none` models the panic on arithmetic overflow. -/
def applyOp {α : Type} (c : Chain α) : Op α → Option (Chain α)
  | .push v => (push c v).map (·.1)
  | .reserve n => (reserve c n).map (·.1)
  | .add_len n => some (add_len c n)

/-- Apply a sequence of operations. -/
def applyOps {α : Type} (c : Chain α) : List (Op α) → Option (Chain α)
  | [] => some c
  | op :: ops =>
    match applyOp c op with
    | none => none
    | some c' => applyOps c' ops

/-- Push a list of values one by one (`Chain::push` repeatedly). -/
def pushAll {α : Type} (c : Chain α) : List α → Option (Chain α)
  | [] => some c
  | v :: vs =>
    match push c v with
    | none => none
    | some (c', _) => pushAll c' vs

/-- `ptr::copy_nonoverlapping(src, ptr, n)`: write the values of a list
consecutively starting at a pointer. -/
def writeSeq {α : Type} (c : Chain α) (p : Nat × Nat) : List α → Chain α
  | [] => c
  | v :: vs => writeSeq (writeAt c p v) (p.1, p.2 + 1) vs

/-- `impl io::Write for Chain<u8>` (chain.rs 263-278): `reserve(0)`,
copy `min(available, buf.len())` bytes into the tail's free space,
return `Ok` of that count.  The source guards the copy with
`if len != 0`; copying zero bytes is a no-op either way, so the guard is
dropped here.  Note: no `add_len` is performed. -/
def io_write {α : Type} (c : Chain α) (buf : List α) : Option (Chain α × Nat) :=
  match reserve c 0 with
  | none => none
  | some (c', p, avail) =>
    let len := min avail buf.length
    some (writeSeq c' p (buf.take len), len)

/-- The per-chunk bookkeeping data (id, cap, len) of every chunk, used
to state that an operation does not grow or re-link the chain. -/
def shape {α : Type} (c : Chain α) : List (Nat × Nat × Nat) :=
  (c.chunks).map (fun ch => (ch.id, ch.cap, ch.len))

/-- `Chain::clear` (chain.rs 156-180), effect on the chain state: all
non-tail chunks are unlinked (and freed), the tail becomes head with
`len = 0`. -/
def clear {α : Type} (c : Chain α) : Chain α :=
  ⟨[], ⟨c.tail.id, c.tail.cap, 0, c.tail.buf⟩, c.nextId⟩

end Chain

/-- A bounded `while pos < endB { visit pos; pos += stepB }` loop over
byte offsets, as in the element-destructor loops of `Chain::clear` and
`MonoVec::drop`.  `gas` is an iteration bound:  both call sites pass
`gas = endB` which is sufficient because there `stepB ≥ 1` whenever
`pos < endB` is reachable (`stepB = 0` forces `endB = 0`, in which case
the loop body never runs). -/
def dropLoopGas : Nat → Nat → Nat → Nat → List Nat
  | 0, _, _, _ => []
  | gas + 1, endB, stepB, pos =>
    if pos < endB then pos :: dropLoopGas gas endB stepB (pos + stepB) else []

/-- The byte offsets visited by `while ptr < end { ...; ptr += step }`
starting at offset 0. -/
def dropLoopBytes (endB stepB : Nat) : List Nat :=
  dropLoopGas endB endB stepB 0

namespace Chain

/-- Element indices finalized by the destructor loop of `Chain::clear`
(chain.rs 161-168) on a chunk of `len` elements of size `s` bytes:
`ptr` starts at `items`, the end is `ptr.offset(len)` = `len * s` bytes,
and each iteration advances `ptr.offset(size_of::<T>())`, i.e. `s`
*elements* = `s * s` bytes.  A `drop_in_place` at byte offset `b`
finalizes the element with index `b / s`. -/
def clearChunkDropIdx (len s : Nat) : List Nat :=
  (dropLoopBytes (len * s) (s * s)).map (· / s)

/-- Elements finalized by `Chain::clear` over the whole chain (the loop
runs over every chunk from head to tail inclusive), as
(chunk id, element index) pairs; no destructor runs when
`!needs_drop::<T>()`. -/
def clearDropIdx {α : Type} (c : Chain α) (s : Nat) (needs_drop : Bool) : List (Nat × Nat) :=
  if needs_drop then
    (c.chunks).flatMap (fun ch => (clearChunkDropIdx ch.len s).map (fun i => (ch.id, i)))
  else []

/-- (size, align) arguments of the `heap::deallocate` calls made by
`Chain::clear` (chain.rs 172-174): every chunk except the tail is freed
with size `size_of::<Chunk<T>>() + len * size_of::<T>()` (note: `len`,
not `cap`) and the chunk header alignment.  `hs` = header size,
`es` = element size, `ac` = chunk alignment. -/
def clearDeallocLayouts {α : Type} (c : Chain α) (hs es ac : Nat) : List (Nat × Nat) :=
  c.init.map (fun ch => (hs + ch.len * es, ac))

/-- (size, align) arguments of all `heap::deallocate` calls of a full
`Chain` teardown (`impl Drop for Chain`, chain.rs 280-291): `clear()`
followed by freeing the remaining chunk with size
`size_of::<Chunk<T>>() + len * size_of::<T>()` where `len` is its
length *after* `clear` (i.e. 0). -/
def dropDeallocLayouts {α : Type} (c : Chain α) (hs es ac : Nat) : List (Nat × Nat) :=
  clearDeallocLayouts c hs es ac ++ [(hs + (clear c).tail.len * es, ac)]

end Chain

namespace MonoVec

/-- Element indices finalized per chunk by `impl Drop for MonoVec`
(monovec.rs 217-224): the loop advances `cur.offset(1)`, i.e. one
element = `s` bytes per iteration, up to `len * s` bytes. -/
def dropChunkDropIdx (len s : Nat) : List Nat :=
  (dropLoopBytes (len * s) s).map (· / s)

/-- Elements finalized by `impl Drop for MonoVec` over the whole vector,
as (chunk id, element index) pairs. -/
def dropIdx {α : Type} (c : Chain α) (s : Nat) (needs_drop : Bool) : List (Nat × Nat) :=
  if needs_drop then
    (c.chunks).flatMap (fun ch => (dropChunkDropIdx ch.len s).map (fun i => (ch.id, i)))
  else []

/-- (size, align) arguments of the `heap::deallocate` calls of
`impl Drop for MonoVec` (monovec.rs 225-227): every chunk is freed with
size `cap * size_of::<T>()` (the header size is omitted) and alignment
`min_align_of::<T>()` (`ta`), not the chunk header alignment. -/
def dropDeallocLayouts {α : Type} (c : Chain α) (es ta : Nat) : List (Nat × Nat) :=
  (c.chunks).map (fun ch => (ch.cap * es, ta))

/-- Push a list of values one by one (`MonoVec::push` repeatedly). -/
def pushAll {α : Type} (c : Chain α) : List α → Option (Chain α)
  | [] => some c
  | v :: vs =>
    match push c v with
    | none => none
    | some (c', _) => pushAll c' vs

/-- `impl io::Write for MonoVec<u8>` (monovec.rs 193-203), textually
identical to the `Chain<u8>` implementation. -/
def io_write {α : Type} (c : Chain α) (buf : List α) : Option (Chain α × Nat) :=
  match Chain.reserve c 0 with
  | none => none
  | some (c', p, avail) =>
    let len := min avail buf.length
    some (Chain.writeSeq c' p (buf.take len), len)

end MonoVec

namespace Chunk

/-- `Chunk::array_size` (monovec.rs 37-39 / chain.rs 36-38):
`len.checked_mul(size_of::<T>()).unwrap()`, with `es = size_of::<T>()`. -/
def array_size_bytes (es len : Nat) : Option Nat :=
  checked_mul len es

/-- `Chunk::mem_size` (monovec.rs 41-43 / chain.rs 40-42):
`size_of::<Chunk<T>>().checked_add(array_size(len)).unwrap()`, with
`hs = size_of::<Chunk<T>>()`. -/
def mem_size_bytes (hs es len : Nat) : Option Nat :=
  match array_size_bytes es len with
  | none => none
  | some a => checked_add hs a

/-- The (size, align) layout passed to `heap::allocate` by `Chunk::new`
(monovec.rs 47-48 / chain.rs 46-47): `mem_size(cap)` and
`align_of::<Chunk<T>>()` (`ac`). -/
def allocLayout (hs es ac cap : Nat) : Option (Nat × Nat) :=
  (mem_size_bytes hs es cap).map (fun s => (s, ac))

end Chunk


/-- A `Quota` (zone.rs 74-79): ephemeral write cursor into a `Zone`'s
chain — origin pointer, written length, reserved capacity.  The
back-reference to the owning `Zone` is passed explicitly to the
operations that need it. -/
structure Quota (α : Type) where
  origin : Nat × Nat
  len : Nat
  cap : Nat
deriving DecidableEq

namespace Zone

/-- `Zone::alloc` (zone.rs 37-48): reserve at least `len` slots,
immediately commit the *entire* returned capacity with `add_len(cap)`,
and hand out a `Quota` of written length 0 over that capacity.  The
`Zone` itself is a plain wrapper around a `Chain`. -/
def alloc {α : Type} (c : Chain α) (len : Nat) : Option (Chain α × Quota α) :=
  match Chain.reserve c len with
  | none => none
  | some (c', origin, cap) => some (Chain.add_len c' cap, ⟨origin, 0, cap⟩)

end Zone

namespace Quota

/-- `Quota::push` (zone.rs 92-103): if `cap == len` return `Err(elem)`
(modelled as `some elem` in the third component) touching nothing;
otherwise write the element at `origin + len` and increment `len`. -/
def push {α : Type} (c : Chain α) (q : Quota α) (v : α) : Chain α × Quota α × Option α :=
  if q.cap = q.len then (c, q, some v)
  else (Chain.writeAt c (q.origin.1, q.origin.2 + q.len) v, ⟨q.origin, q.len + 1, q.cap⟩, none)

/-- `Quota::fill` (zone.rs 105-113): copy
`min(cap - len, data.len())` elements to `origin + len`, advance `len`,
return the count. -/
def fill {α : Type} (c : Chain α) (q : Quota α) (data : List α) : Chain α × Quota α × Nat :=
  let len := min (q.cap - q.len) data.length
  (Chain.writeSeq c (q.origin.1, q.origin.2 + q.len) (data.take len),
   ⟨q.origin, q.len + len, q.cap⟩, len)

/-- `Quota::clear` (zone.rs 134-146).  The entire body, including the
`self.len = 0` reset, sits inside `if intrinsics::needs_drop::<T>()`;
for a type without drop glue the method does nothing at all.  The second
component lists the element indices (relative to `origin`) on which
`drop_in_place` runs: the loop steps `ptr.offset(1)`, one element at a
time, over the written prefix. -/
def clear {α : Type} (needs_drop : Bool) (q : Quota α) : Quota α × List Nat :=
  if needs_drop then (⟨q.origin, 0, q.cap⟩, List.range q.len) else (q, [])

/-- `impl Drop for Quota` (zone.rs 156-163): on release the quota calls
`chain.shrink_len(origin, cap, len)` on the owning zone's chain. -/
def drop {α : Type} (c : Chain α) (q : Quota α) : Chain α :=
  Chain.shrink_len c q.origin q.cap q.len

end Quota

/-- One write event performed by `HetVec::alloc`/`HetVec::push`
(hetvec.rs 199-222), at the granularity C4 speaks about.  A descriptor
(`FencePost`) write carries whether the descriptor is a stub, i.e.
whether its forward function resolves to a null object pointer — the
property the iterators and `Drop` test with `forward.obj.is_null()`. -/
inductive HVWrite where
  | commitLen (bytes : Nat)
  | sentinel (word : Nat)
  | fence (stub : Bool)
  | value
  | setBackward
deriving DecidableEq

namespace HetVec

/-- Whether the descriptor written by `HetVec::alloc` is a stub.  The
fencepost stored at hetvec.rs 211 encodes `Self::forward::<T>`
(hetvec.rs 157-177), whose `obj` field is
`fence.offset(1).align_for::<T>()` — never null.  So the descriptor
written for a pushed value is always the real, finalizable one. -/
def forwardObjIsNull : Bool := false

/-- The sequence of writes performed by `HetVec::alloc::<T>`
(hetvec.rs 199-213) on an entry whose alignment padding spans
`pad_words` sentinel words and whose committed region is `entry_size`
bytes: commit the region (`add_len`, line 204), stamp the padding words
with the sentinel pattern (lines 206-210), then write the fencepost
descriptor (line 211). -/
def allocWrites (entry_size pad_words : Nat) : List HVWrite :=
  HVWrite.commitLen entry_size ::
    ((List.range pad_words).map HVWrite.sentinel ++ [HVWrite.fence forwardObjIsNull])

/-- The sequence of writes performed by `HetVec::push` (hetvec.rs
215-222): `alloc::<T>()`, then `ptr::write(obj, elem)` (the value bytes),
then updating the most-recent-backward-function cell. -/
def pushWrites (entry_size pad_words : Nat) : List HVWrite :=
  allocWrites entry_size pad_words ++ [HVWrite.value, HVWrite.setBackward]

/-- An entry as seen by `impl Drop for HetVec` (hetvec.rs 243-265):
the walk resolves each descriptor to a `Forward` record and tests
`forward.obj.is_null()`.  `tag` identifies the entry. -/
structure Entry where
  objNull : Bool
  tag : Nat
deriving DecidableEq

/-- The entries whose finalizer (`forward.drop`) is run by the teardown
walk of `impl Drop for HetVec` (hetvec.rs 248-261): each entry in order,
skipped exactly when `forward.obj.is_null()`. -/
def dropFinalized : List Entry → List Entry
  | [] => []
  | e :: rest => if e.objNull then dropFinalized rest else e :: dropFinalized rest

end HetVec

namespace Chain

/-- Cells at or beyond the committed length hold no written value.
This holds for every chunk the safe API ever creates, because values are
written only into reserved space directly below the new length. -/
def chunkInitOk {α : Type} (ch : Chunk α) : Prop :=
  ∀ i, i < ch.buf.length → ch.len ≤ i → ch.buf[i]? = some none

instance {α : Type} [DecidableEq α] (ch : Chunk α) : Decidable (chunkInitOk ch) := by
  unfold chunkInitOk; infer_instance

/-- Identities are coherent: every chunk id is below the fresh-id
counter and no two chunks share an id.  True of every reachable state
(the provider never hands out the same block twice while both are
live). -/
def Ids {α : Type} (c : Chain α) : Prop :=
  (∀ ch ∈ c.chunks, ch.id < c.nextId) ∧ ((c.chunks).map Chunk.id).Nodup

/-- The invariant needed for address stability.  It is preserved by
`push`, `reserve` and `add_len` — even an `add_len` violating the
(unsafe) caller contract. -/
def Inv {α : Type} (c : Chain α) : Prop :=
  Ids c ∧ ∀ ch ∈ c.chunks, ch.buf.length = ch.cap ∧ chunkInitOk ch

/-- A chunk of a state reachable through the safe API: storage matches
the capacity, the committed length fits, the capacity is at least 1 and
representable, and uncommitted cells are unwritten. -/
def chunkWF {α : Type} (ch : Chunk α) : Prop :=
  ch.buf.length = ch.cap ∧ ch.len ≤ ch.cap ∧ 1 ≤ ch.cap ∧ ch.cap ≤ usizeMax ∧ chunkInitOk ch

/-- Full well-formedness of a reachable chain state. -/
def WF {α : Type} (c : Chain α) : Prop :=
  Ids c ∧ ∀ ch ∈ c.chunks, chunkWF ch

instance {α : Type} [DecidableEq α] (c : Chain α) : Decidable (Ids c) := by
  unfold Ids; infer_instance

instance {α : Type} [DecidableEq α] (c : Chain α) : Decidable (Inv c) := by
  unfold Inv; infer_instance

instance {α : Type} [DecidableEq α] (c : Chain α) : Decidable (WF c) := by
  unfold WF chunkWF; infer_instance

end Chain

namespace Chain

theorem grow_loop_some {len m r : Nat} (hm : m ≤ usizeMax)
    (h : grow_loop len m = some r) :
    len ≤ r ∧ r ≤ usizeMax ∧ ∃ j, r = m * 2 ^ j ∧ ∀ i < j, m * 2 ^ i < len := by
  revert hm h
  refine grow_loop.induct len
    (fun m => m ≤ usizeMax → grow_loop len m = some r →
      len ≤ r ∧ r ≤ usizeMax ∧ ∃ j, r = m * 2 ^ j ∧ ∀ i < j, m * 2 ^ i < len)
    ?_ ?_ ?_ ?_ m
  · intro hlt hmul hm h
    rw [grow_loop] at h
    simp only [if_pos hlt, if_pos hmul] at h
    simp at h
  · intro x hlt hmul hz ih hm h
    rw [grow_loop, if_pos hlt, if_pos hmul, if_neg hz] at h
    obtain ⟨h1, h2, j, hj, hbelow⟩ := ih hmul h
    refine ⟨h1, h2, j + 1, ?_, ?_⟩
    · rw [hj]; ring
    · intro i hi
      match i with
      | 0 => simpa using hlt
      | i + 1 =>
        have := hbelow i (by omega)
        calc x * 2 ^ (i + 1) = x * 2 * 2 ^ i := by ring
        _ < len := this
  · intro x hlt hmul hm h
    rw [grow_loop, if_pos hlt, if_neg hmul] at h
    exact absurd h (by simp)
  · intro x hlt hm h
    rw [grow_loop, if_neg hlt] at h
    have hr : x = r := by simpa using h
    subst hr
    refine ⟨by omega, hm, 0, by norm_num, by omega⟩

theorem grow_loop_none {len m : Nat} (hm1 : 1 ≤ m) :
    (grow_loop len m = none ↔
      ∃ t, 1 ≤ t ∧ usizeMax < m * 2 ^ t ∧ ∀ i < t, m * 2 ^ i < len) := by
  revert hm1
  refine grow_loop.induct len
    (fun m => 1 ≤ m → (grow_loop len m = none ↔
      ∃ t, 1 ≤ t ∧ usizeMax < m * 2 ^ t ∧ ∀ i < t, m * 2 ^ i < len))
    ?_ ?_ ?_ ?_ m
  · intro hlt hmul hm1
    omega
  · intro x hlt hmul hz ih hm1
    rw [grow_loop, if_pos hlt, if_pos hmul, if_neg hz, ih (by omega)]
    constructor
    · rintro ⟨t, ht1, htmax, htbelow⟩
      refine ⟨t + 1, by omega, ?_, ?_⟩
      · calc usizeMax < x * 2 * 2 ^ t := htmax
        _ = x * 2 ^ (t + 1) := by ring
      · intro i hi
        match i with
        | 0 => simpa using hlt
        | i + 1 =>
          have := htbelow i (by omega)
          calc x * 2 ^ (i + 1) = x * 2 * 2 ^ i := by ring
          _ < len := this
    · rintro ⟨t, ht1, htmax, htbelow⟩
      have ht2 : 2 ≤ t := by
        by_contra hcon
        have hteq : t = 1 := by omega
        subst hteq
        simp only [pow_one] at htmax
        omega
      refine ⟨t - 1, by omega, ?_, ?_⟩
      · have heq : x * 2 * 2 ^ (t - 1) = x * 2 ^ t := by
          have hsucc : t - 1 + 1 = t := by omega
          calc x * 2 * 2 ^ (t - 1) = x * 2 ^ (t - 1 + 1) := by ring
          _ = x * 2 ^ t := by rw [hsucc]
        omega
      · intro i hi
        have := htbelow (i + 1) (by omega)
        calc x * 2 * 2 ^ i = x * 2 ^ (i + 1) := by ring
        _ < len := this
  · intro x hlt hmul hm1
    rw [grow_loop, if_pos hlt, if_neg hmul]
    simp only [true_iff]
    refine ⟨1, le_refl 1, by simpa using hmul, ?_⟩
    intro i hi
    interval_cases i
    simpa using hlt
  · intro x hlt hm1
    rw [grow_loop, if_neg hlt]
    simp only [reduceCtorEq, false_iff, not_exists, not_and]
    intro t ht1 _ hbelow
    have := hbelow 0 (by omega)
    simp only [pow_zero, mul_one] at this
    omega

/-- Case analysis of `reserve`'s successful outcomes: either the tail
already had room and the chain is untouched, or a fresh chunk produced
by the grow loop became the new tail. -/
theorem reserve_spec {α : Type} {c : Chain α} {n : Nat} {c' : Chain α}
    {p : Nat × Nat} {avail : Nat}
    (h : reserve c n = some (c', p, avail)) :
    p = (c'.tail.id, c'.tail.len) ∧ avail = c'.tail.cap - c'.tail.len ∧
      ((¬ c.tail.cap - c.tail.len < n ∧ c' = c) ∨
        (c.tail.cap - c.tail.len < n ∧ ∃ new_cap,
          c' = ⟨c.init ++ [c.tail], Chunk.new α c.nextId new_cap, c.nextId + 1⟩ ∧
          grow_loop n (c.tail.cap * 2) = some new_cap ∧ c.tail.cap * 2 ≤ usizeMax)) := by
  unfold reserve at h
  by_cases hfree : c.tail.cap - c.tail.len < n
  · rw [if_pos hfree] at h
    by_cases hmul : c.tail.cap * 2 ≤ usizeMax
    · rw [if_pos hmul] at h
      cases hg : grow_loop n (c.tail.cap * 2) with
      | none => rw [hg] at h; exact absurd h (by simp)
      | some new_cap =>
        rw [hg] at h
        simp only [Option.some.injEq, Prod.mk.injEq] at h
        obtain ⟨hc, hp, ha⟩ := h
        subst hc
        exact ⟨hp.symm, ha.symm, Or.inr ⟨hfree, new_cap, rfl, rfl, hmul⟩⟩
    · rw [if_neg hmul] at h
      exact absurd h (by simp)
  · rw [if_neg hfree] at h
    simp only [Option.some.injEq, Prod.mk.injEq] at h
    obtain ⟨hc, hp, ha⟩ := h
    subst hc
    exact ⟨hp.symm, ha.symm, Or.inl ⟨hfree, rfl⟩⟩

/-- `reserve` always makes at least the requested room available. -/
theorem reserve_avail {α : Type} {c : Chain α} {n : Nat} {c' : Chain α}
    {p : Nat × Nat} {avail : Nat}
    (h : reserve c n = some (c', p, avail)) : n ≤ avail := by
  obtain ⟨_, ha, hcases⟩ := reserve_spec h
  rcases hcases with ⟨hfree, rfl⟩ | ⟨hfree, new_cap, hc, hg, hmul⟩
  · omega
  · subst hc
    obtain ⟨h1, _, _⟩ := grow_loop_some hmul hg
    simp only [Chunk.new] at ha
    omega

end Chain

namespace Chain

/-- Characterization of `reserve` aborting (arithmetic overflow): with a
well-formed tail capacity and a growth actually required, `reserve`
panics exactly when every adequate capacity of the doubling scheme
exceeds `usizeMax`. -/
theorem reserve_none_iff {α : Type} {c : Chain α} {n : Nat}
    (hcap1 : 1 ≤ c.tail.cap)
    (hfree : c.tail.cap - c.tail.len < n) :
    (reserve c n = none ↔
      ∀ k, 1 ≤ k → n ≤ c.tail.cap * 2 ^ k → usizeMax < c.tail.cap * 2 ^ k) := by
  unfold reserve
  rw [if_pos hfree]
  by_cases hmul : c.tail.cap * 2 ≤ usizeMax
  · rw [if_pos hmul]
    cases hg : grow_loop n (c.tail.cap * 2) with
    | none =>
      simp only [true_iff]
      rw [grow_loop_none (by omega)] at hg
      obtain ⟨t, ht1, htmax, htb⟩ := hg
      intro k hk1 hkad
      by_cases hkt : k ≤ t
      · exfalso
        have hkk : k - 1 < t := by omega
        have := htb (k - 1) hkk
        have heq : c.tail.cap * 2 * 2 ^ (k - 1) = c.tail.cap * 2 ^ k := by
          have hs : k - 1 + 1 = k := by omega
          calc c.tail.cap * 2 * 2 ^ (k - 1) = c.tail.cap * 2 ^ (k - 1 + 1) := by ring
          _ = c.tail.cap * 2 ^ k := by rw [hs]
        omega
      · have hmono : c.tail.cap * 2 * 2 ^ t ≤ c.tail.cap * 2 ^ k := by
          have heq : c.tail.cap * 2 * 2 ^ t = c.tail.cap * 2 ^ (t + 1) := by ring
          rw [heq]
          exact Nat.mul_le_mul_left _ (Nat.pow_le_pow_right (by omega) (by omega))
        omega
    | some new_cap =>
      simp only [reduceCtorEq, false_iff, not_forall]
      have hnex : ¬ ∃ t, 1 ≤ t ∧ usizeMax < c.tail.cap * 2 * 2 ^ t ∧
          ∀ i < t, c.tail.cap * 2 * 2 ^ i < n := by
        rw [← grow_loop_none (by omega : (1:Nat) ≤ c.tail.cap * 2)]
        simp [hg]
      push_neg at hnex
      have hP : ∃ t, usizeMax < c.tail.cap * 2 * 2 ^ t := by
        refine ⟨64, ?_⟩
        have hge : 2 * 2 ^ 64 ≤ c.tail.cap * 2 * 2 ^ 64 := by
          have := Nat.mul_le_mul_right (2 ^ 64) (by omega : 2 ≤ c.tail.cap * 2)
          simpa using this
        have hlt : usizeMax < 2 * 2 ^ 64 := by norm_num [usizeMax]
        omega
      classical
      have hT : usizeMax < c.tail.cap * 2 * 2 ^ Nat.find hP := Nat.find_spec hP
      have hT1 : 1 ≤ Nat.find hP := by
        rcases Nat.eq_zero_or_pos (Nat.find hP) with h0 | h1
        · exfalso
          rw [h0] at hT
          simp only [pow_zero, mul_one] at hT
          omega
        · exact h1
      obtain ⟨i, hiT, hige⟩ := hnex (Nat.find hP) hT1 hT
      have heq : c.tail.cap * 2 * 2 ^ i = c.tail.cap * 2 ^ (i + 1) := by ring
      refine ⟨i + 1, by omega, by omega, ?_⟩
      have := Nat.find_min hP hiT
      omega
  · rw [if_neg hmul]
    simp only [true_iff]
    intro k hk1 _
    have hmono : c.tail.cap * 2 ≤ c.tail.cap * 2 ^ k := by
      calc c.tail.cap * 2 = c.tail.cap * 2 ^ 1 := by ring
      _ ≤ c.tail.cap * 2 ^ k := Nat.mul_le_mul_left _ (Nat.pow_le_pow_right (by omega) hk1)
    omega

end Chain

namespace Chain

theorem chunks_eq {α : Type} (c : Chain α) : c.chunks = c.init ++ [c.tail] := rfl

/-- `readAt` as an `Option.bind` chain, for calculation. -/
theorem readAt_eq_bind {α : Type} (c : Chain α) (p : Nat × Nat) :
    readAt c p =
      ((c.chunks).find? (fun ch => ch.id = p.1)).bind
        (fun ch => (ch.buf[p.2]?).bind (fun o => o)) := by
  cases hfi : (c.chunks).find? (fun ch => ch.id = p.1) with
  | none => simp [readAt, hfi]
  | some ch =>
    cases hcell : ch.buf[p.2]? with
    | none => simp [readAt, hfi, hcell]
    | some o => cases o <;> simp [readAt, hfi, hcell]

/-- A modification of the tail chunk that keeps its id and all written
cells preserves every successful read. -/
theorem readAt_stable_tailmod {α : Type} {c : Chain α} {t' : Chunk α} {n' : Nat}
    (hid : t'.id = c.tail.id)
    (hbuf : ∀ (i : Nat) (w : α), c.tail.buf[i]? = some (some w) → t'.buf[i]? = some (some w)) :
    ∀ p w, readAt c p = some w → readAt ⟨c.init, t', n'⟩ p = some w := by
  intro p w h
  rw [readAt_eq_bind] at h ⊢
  simp only [chunks_eq] at h ⊢
  rw [List.find?_append] at h ⊢
  cases hfi : c.init.find? (fun ch => ch.id = p.1) with
  | some ch =>
    rw [hfi] at h
    simpa using h
  | none =>
    rw [hfi] at h
    simp only [Option.none_or, List.find?_singleton] at h ⊢
    by_cases hpt : c.tail.id = p.1
    · have hpt' : t'.id = p.1 := by rw [hid]; exact hpt
      rw [if_pos (by simp [hpt])] at h
      rw [if_pos (by simp [hpt'])]
      rw [Option.some_bind] at h ⊢
      rw [Option.bind_eq_some] at h ⊢
      obtain ⟨o, hcell, ho⟩ := h
      have ho' : o = some w := ho
      subst ho'
      exact ⟨some w, hbuf p.2 w hcell, rfl⟩
    · rw [if_neg (by simp [hpt])] at h
      simp at h

/-- Appending a fresh chunk preserves every successful read. -/
theorem readAt_stable_append {α : Type} {c : Chain α} {newc : Chunk α} {n' : Nat} :
    ∀ p w, readAt c p = some w → readAt ⟨c.init ++ [c.tail], newc, n'⟩ p = some w := by
  intro p w h
  rw [readAt_eq_bind] at h ⊢
  simp only [chunks_eq] at h ⊢
  rw [List.find?_append]
  cases hfi : (c.init ++ [c.tail]).find? (fun ch => ch.id = p.1) with
  | none =>
    rw [hfi] at h
    simp at h
  | some ch =>
    rw [hfi] at h
    simpa using h

end Chain

namespace Chain

theorem tail_mem_chunks {α : Type} (c : Chain α) : c.tail ∈ c.chunks := by
  simp [chunks_eq]

theorem mem_chunks_of_mem_init {α : Type} {c : Chain α} {ch : Chunk α}
    (h : ch ∈ c.init) : ch ∈ c.chunks := by
  simp [chunks_eq, h]

theorem mem_chunks_cases {α : Type} {c : Chain α} {ch : Chunk α}
    (h : ch ∈ c.chunks) : ch ∈ c.init ∨ ch = c.tail := by
  rw [chunks_eq, List.mem_append, List.mem_singleton] at h
  exact h

theorem Inv_reserve {α : Type} {c c' : Chain α} {n : Nat} {p : Nat × Nat} {a : Nat}
    (hInv : Inv c) (h : reserve c n = some (c', p, a)) : Inv c' := by
  obtain ⟨-, -, hcases⟩ := reserve_spec h
  rcases hcases with ⟨-, rfl⟩ | ⟨-, new_cap, rfl, hg, hmul⟩
  · exact hInv
  · obtain ⟨⟨hlt, hnd⟩, hbufs⟩ := hInv
    refine ⟨⟨?_, ?_⟩, ?_⟩
    · intro ch hch
      rcases mem_chunks_cases hch with hch | hch
      · rw [List.mem_append, List.mem_singleton] at hch
        have hin : ch ∈ c.chunks := by
          rw [chunks_eq, List.mem_append, List.mem_singleton]; exact hch
        have := hlt ch hin
        dsimp only
        omega
      · subst hch
        simp [Chunk.new]
    · have hmapeq : (chunks ⟨c.init ++ [c.tail], Chunk.new α c.nextId new_cap,
          c.nextId + 1⟩).map Chunk.id
          = (chunks c).map Chunk.id ++ [c.nextId] := by
        simp [chunks_eq, Chunk.new]
      rw [hmapeq, List.nodup_append]
      refine ⟨hnd, by simp, ?_⟩
      intro x hx
      have hx' : x < c.nextId := by
        simp only [List.mem_map] at hx
        obtain ⟨ch, hch, rfl⟩ := hx
        exact hlt ch hch
      simp only [List.mem_singleton]
      omega
    · intro ch hch
      rcases mem_chunks_cases hch with hch | hch
      · rw [List.mem_append, List.mem_singleton] at hch
        refine hbufs ch ?_
        rw [chunks_eq, List.mem_append, List.mem_singleton]; exact hch
      · subst hch
        constructor
        · simp [Chunk.new]
        · intro i hilen hige
          simp only [Chunk.new] at hilen ⊢
          rw [List.getElem?_replicate_of_lt (by simpa using hilen)]

theorem Inv_add_len {α : Type} {c : Chain α} {n : Nat} (hInv : Inv c) :
    Inv (add_len c n) := by
  obtain ⟨⟨hlt, hnd⟩, hbufs⟩ := hInv
  refine ⟨⟨?_, ?_⟩, ?_⟩
  · intro ch hch
    rcases mem_chunks_cases hch with hch | hch
    · exact hlt ch (mem_chunks_of_mem_init hch)
    · subst hch
      exact hlt c.tail (tail_mem_chunks c)
  · have hmapeq : (chunks (add_len c n)).map Chunk.id = (chunks c).map Chunk.id := by
      simp [add_len, chunks_eq]
    rw [hmapeq]
    exact hnd
  · intro ch hch
    rcases mem_chunks_cases hch with hch | hch
    · exact hbufs ch (mem_chunks_of_mem_init hch)
    · subst hch
      obtain ⟨hl, hio⟩ := hbufs c.tail (tail_mem_chunks c)
      refine ⟨hl, ?_⟩
      intro i hilen hige
      dsimp only [add_len] at hilen hige ⊢
      exact hio i hilen (by omega)

/-- Normal form of a successful `push`. -/
theorem push_normal_form {α : Type} {c : Chain α} {v : α} {c' : Chain α} {p : Nat × Nat}
    (h : push c v = some (c', p)) :
    ∃ d a, reserve c 1 = some (d, p, a) ∧ 1 ≤ a ∧ p = (d.tail.id, d.tail.len) ∧
      c' = ⟨d.init, ⟨d.tail.id, d.tail.cap, d.tail.len + 1,
              d.tail.buf.set d.tail.len (some v)⟩, d.nextId⟩ := by
  unfold push at h
  cases hr : reserve c 1 with
  | none => rw [hr] at h; exact absurd h (by simp)
  | some res =>
    obtain ⟨d, pd, a⟩ := res
    rw [hr] at h
    simp only [Option.some.injEq, Prod.mk.injEq] at h
    obtain ⟨hc', hpd⟩ := h
    subst hpd
    obtain ⟨hp, -, -⟩ := reserve_spec hr
    refine ⟨d, a, rfl, reserve_avail hr, hp, ?_⟩
    rw [← hc', hp]
    simp [writeAt, add_len]

theorem Inv_push {α : Type} {c : Chain α} {v : α} {c' : Chain α} {p : Nat × Nat}
    (hInv : Inv c) (h : push c v = some (c', p)) : Inv c' := by
  obtain ⟨d, a, hr, ha, hp, hc'⟩ := push_normal_form h
  have hInvd : Inv d := Inv_reserve hInv hr
  obtain ⟨⟨hlt, hnd⟩, hbufs⟩ := hInvd
  subst hc'
  refine ⟨⟨?_, ?_⟩, ?_⟩
  · intro ch hch
    rcases mem_chunks_cases hch with hch | hch
    · exact hlt ch (mem_chunks_of_mem_init hch)
    · subst hch
      exact hlt d.tail (tail_mem_chunks d)
  · have hmapeq : List.map Chunk.id (chunks ⟨d.init, ⟨d.tail.id, d.tail.cap, d.tail.len + 1,
        d.tail.buf.set d.tail.len (some v)⟩, d.nextId⟩) = List.map Chunk.id (chunks d) := by
      simp [chunks_eq]
    rw [hmapeq]
    exact hnd
  · intro ch hch
    rcases mem_chunks_cases hch with hch | hch
    · exact hbufs ch (mem_chunks_of_mem_init hch)
    · subst hch
      obtain ⟨hl, hio⟩ := hbufs d.tail (tail_mem_chunks d)
      refine ⟨by simpa using hl, ?_⟩
      intro i hilen hige
      dsimp only at hilen hige ⊢
      simp only [List.length_set] at hilen
      rw [List.getElem?_set_ne (by omega)]
      exact hio i hilen (by omega)

theorem push_readAt_mono {α : Type} {c : Chain α} {v : α} {c' : Chain α} {p : Nat × Nat}
    (hInv : Inv c) (h : push c v = some (c', p)) :
    ∀ q w, readAt c q = some w → readAt c' q = some w := by
  obtain ⟨d, a, hr, ha, hp, hc'⟩ := push_normal_form h
  have hInvd : Inv d := Inv_reserve hInv hr
  have hmono1 : ∀ q w, readAt c q = some w → readAt d q = some w := by
    obtain ⟨-, -, hcases⟩ := reserve_spec hr
    rcases hcases with ⟨-, rfl⟩ | ⟨-, new_cap, rfl, -, -⟩
    · intro q w hw; exact hw
    · exact readAt_stable_append
  intro q w hw
  subst hc'
  refine readAt_stable_tailmod ?_ ?_ q w (hmono1 q w hw)
  · rfl
  · intro i u hcell
    obtain ⟨-, hbufs⟩ := hInvd
    obtain ⟨hl, hio⟩ := hbufs d.tail (tail_mem_chunks d)
    have hne : i ≠ d.tail.len := by
      intro heq
      rw [heq] at hcell
      by_cases hlen : d.tail.len < d.tail.buf.length
      · rw [hio d.tail.len hlen (le_refl _)] at hcell
        simp at hcell
      · rw [List.getElem?_eq_none (by omega)] at hcell
        simp at hcell
    dsimp only
    rw [List.getElem?_set_ne (by omega)]
    exact hcell

theorem push_readAt_new {α : Type} {c : Chain α} {v : α} {c' : Chain α} {p : Nat × Nat}
    (hInv : Inv c) (h : push c v = some (c', p)) : readAt c' p = some v := by
  obtain ⟨d, a, hr, ha, hp, hc'⟩ := push_normal_form h
  have hInvd : Inv d := Inv_reserve hInv hr
  obtain ⟨⟨hlt, hnd⟩, hbufs⟩ := hInvd
  obtain ⟨hl, -⟩ := hbufs d.tail (tail_mem_chunks d)
  have havail : d.tail.len < d.tail.cap := by
    obtain ⟨-, haeq, -⟩ := reserve_spec hr
    omega
  subst hp
  have hfind : d.init.find? (fun ch => ch.id = (d.tail.id, d.tail.len).1) = none := by
    rw [List.find?_eq_none]
    intro ch hch
    simp only [decide_eq_true_eq]
    intro heq
    have hnd' : ((d.init ++ [d.tail]).map Chunk.id).Nodup := by
      simpa [chunks_eq] using hnd
    rw [List.map_append] at hnd'
    have hdisj := (List.nodup_append.mp hnd').2.2
    exact hdisj (List.mem_map_of_mem Chunk.id hch) (by simpa using heq)
  subst hc'
  rw [readAt_eq_bind]
  simp only [chunks_eq, List.find?_append, hfind, Option.none_or, List.find?_singleton]
  rw [if_pos (by simp)]
  simp only [Option.some_bind]
  rw [List.getElem?_set_self (by simp only [hl]; omega)]
  simp

end Chain

namespace Chain

theorem Inv_applyOp {α : Type} {c c' : Chain α} {op : Op α}
    (hInv : Inv c) (h : applyOp c op = some c') : Inv c' := by
  cases op with
  | push v =>
    simp only [applyOp, Option.map_eq_some'] at h
    obtain ⟨⟨c2, p⟩, hp, rfl⟩ := h
    exact Inv_push hInv hp
  | reserve n =>
    simp only [applyOp, Option.map_eq_some'] at h
    obtain ⟨⟨c2, p, a⟩, hp, rfl⟩ := h
    exact Inv_reserve hInv hp
  | add_len n =>
    simp only [applyOp, Option.some.injEq] at h
    subst h
    exact Inv_add_len hInv

theorem applyOp_readAt_mono {α : Type} {c c' : Chain α} {op : Op α}
    (hInv : Inv c) (h : applyOp c op = some c') :
    ∀ q w, readAt c q = some w → readAt c' q = some w := by
  cases op with
  | push v =>
    simp only [applyOp, Option.map_eq_some'] at h
    obtain ⟨⟨c2, p⟩, hp, rfl⟩ := h
    exact push_readAt_mono hInv hp
  | reserve n =>
    simp only [applyOp, Option.map_eq_some'] at h
    obtain ⟨⟨c2, p, a⟩, hp, rfl⟩ := h
    obtain ⟨-, -, hcases⟩ := reserve_spec hp
    rcases hcases with ⟨-, rfl⟩ | ⟨-, new_cap, rfl, -, -⟩
    · intro q w hw; exact hw
    · exact readAt_stable_append
  | add_len n =>
    simp only [applyOp, Option.some.injEq] at h
    subst h
    intro q w hw
    refine readAt_stable_tailmod ?_ ?_ q w hw
    · rfl
    · intro i u hcell
      exact hcell

theorem Inv_applyOps {α : Type} {c c' : Chain α} {ops : List (Op α)}
    (hInv : Inv c) (h : applyOps c ops = some c') : Inv c' := by
  induction ops generalizing c with
  | nil => simp only [applyOps, Option.some.injEq] at h; subst h; exact hInv
  | cons op ops ih =>
    simp only [applyOps] at h
    cases hop : applyOp c op with
    | none => rw [hop] at h; exact absurd h (by simp)
    | some c2 =>
      rw [hop] at h
      exact ih (Inv_applyOp hInv hop) h

theorem applyOps_readAt_mono {α : Type} {c c' : Chain α} {ops : List (Op α)}
    (hInv : Inv c) (h : applyOps c ops = some c') :
    ∀ q w, readAt c q = some w → readAt c' q = some w := by
  induction ops generalizing c with
  | nil =>
    simp only [applyOps, Option.some.injEq] at h
    subst h
    intro q w hw; exact hw
  | cons op ops ih =>
    simp only [applyOps] at h
    cases hop : applyOp c op with
    | none => rw [hop] at h; exact absurd h (by simp)
    | some c2 =>
      rw [hop] at h
      intro q w hw
      exact ih (Inv_applyOp hInv hop) h q w (applyOp_readAt_mono hInv hop q w hw)

/-- Shape of `reserve`'s state change: either nothing, or exactly
"link one fresh empty chunk as the new tail". -/
theorem reserve_shape {α : Type} (d : Chain α) (n : Nat) :
    ∀ d' q a, reserve d n = some (d', q, a) →
      d' = d ∨ (d'.init = d.chunks ∧ d'.tail.len = 0 ∧
        d'.tail.buf = List.replicate d'.tail.cap none ∧ d'.nextId = d.nextId + 1) := by
  intro d' q a h
  obtain ⟨-, -, hcases⟩ := reserve_spec h
  rcases hcases with ⟨-, rfl⟩ | ⟨-, new_cap, rfl, -, -⟩
  · exact Or.inl rfl
  · exact Or.inr ⟨by simp [chunks_eq], by simp [Chunk.new], by simp [Chunk.new], rfl⟩

end Chain

namespace Chain

theorem itemsList_new {α : Type} (id cap : Nat) :
    itemsList (Chunk.new α id cap) = [] := by
  simp [itemsList, Chunk.new]

theorem itemsList_push_cell {α : Type} (buf : List (Option α)) (tl : Nat) (v : α)
    (hlen : tl < buf.length) :
    ((buf.set tl (some v)).take (tl + 1)).filterMap id
      = (buf.take tl).filterMap id ++ [v] := by
  rw [List.take_succ]
  rw [List.set_take]
  rw [List.set_eq_of_length_le (by rw [List.length_take]; omega)]
  rw [List.getElem?_set_self (by simpa using hlen)]
  simp

theorem push_iterList {α : Type} {c : Chain α} {v : α} {c' : Chain α} {p : Nat × Nat}
    (hInv : Inv c) (h : push c v = some (c', p)) :
    iterList c' = iterList c ++ [v] := by
  obtain ⟨d, a, hr, ha, hp, hc'⟩ := push_normal_form h
  have hInvd : Inv d := Inv_reserve hInv hr
  have hstep1 : iterList d = iterList c := by
    obtain ⟨-, -, hcases⟩ := reserve_spec hr
    rcases hcases with ⟨-, rfl⟩ | ⟨-, new_cap, rfl, -, -⟩
    · rfl
    · simp [iterList, chunksSlices, chunks_eq, itemsList_new]
  obtain ⟨-, hbufs⟩ := hInvd
  obtain ⟨hl, -⟩ := hbufs d.tail (tail_mem_chunks d)
  have hlen : d.tail.len < d.tail.buf.length := by
    obtain ⟨-, haeq, -⟩ := reserve_spec hr
    omega
  subst hc'
  rw [← hstep1]
  simp only [iterList, chunksSlices, chunks_eq, List.map_append, List.flatten_append]
  simp only [List.map_cons, List.map_nil, List.flatten_cons, List.flatten_nil]
  have htail : itemsList (⟨d.tail.id, d.tail.cap, d.tail.len + 1,
      d.tail.buf.set d.tail.len (some v)⟩ : Chunk α) = itemsList d.tail ++ [v] := by
    simp only [itemsList]
    exact itemsList_push_cell d.tail.buf d.tail.len v hlen
  rw [htail]
  simp

theorem pushAll_iterList {α : Type} {c : Chain α} {vs : List α} {c' : Chain α}
    (hInv : Inv c) (h : pushAll c vs = some c') :
    iterList c' = iterList c ++ vs ∧ Inv c' := by
  induction vs generalizing c with
  | nil =>
    simp only [pushAll, Option.some.injEq] at h
    subst h
    exact ⟨by simp, hInv⟩
  | cons v vs ih =>
    simp only [pushAll] at h
    cases hpu : push c v with
    | none => rw [hpu] at h; exact absurd h (by simp)
    | some res =>
      obtain ⟨c2, p⟩ := res
      rw [hpu] at h
      obtain ⟨h1, h2⟩ := ih (Inv_push hInv hpu) h
      refine ⟨?_, h2⟩
      rw [h1, push_iterList hInv hpu]
      simp

theorem iterBackList_eq_reverse {α : Type} (c : Chain α) :
    iterBackList c = (iterList c).reverse := by
  unfold iterBackList iterList
  rw [List.reverse_flatten]
  rw [← List.map_reverse]

theorem with_capacity_Inv {α : Type} (n : Nat) : Inv (with_capacity α n) := by
  refine ⟨⟨?_, ?_⟩, ?_⟩
  · intro ch hch
    rcases mem_chunks_cases hch with hch | hch
    · simp [with_capacity] at hch
    · subst hch
      simp [with_capacity, Chunk.new]
  · simp [with_capacity, chunks_eq]
  · intro ch hch
    rcases mem_chunks_cases hch with hch | hch
    · simp [with_capacity] at hch
    · subst hch
      refine ⟨by simp [with_capacity, Chunk.new], ?_⟩
      intro i hilen hige
      simp only [with_capacity, Chunk.new] at hilen ⊢
      rw [List.getElem?_replicate_of_lt (by simpa using hilen)]

theorem iterList_with_capacity {α : Type} (n : Nat) :
    iterList (with_capacity α n) = [] := by
  simp [iterList, chunksSlices, chunks_eq, with_capacity, itemsList_new]

theorem WF_to_Inv {α : Type} {c : Chain α} (h : WF c) : Inv c := by
  obtain ⟨hids, hwf⟩ := h
  refine ⟨hids, ?_⟩
  intro ch hch
  obtain ⟨h1, -, -, -, h5⟩ := hwf ch hch
  exact ⟨h1, h5⟩

theorem WF_reserve {α : Type} {c c' : Chain α} {n : Nat} {p : Nat × Nat} {a : Nat}
    (hWF : WF c) (h : reserve c n = some (c', p, a)) : WF c' := by
  have hids' : Ids c' := (Inv_reserve (WF_to_Inv hWF) h).1
  obtain ⟨hids, hwf⟩ := hWF
  obtain ⟨-, -, hcases⟩ := reserve_spec h
  rcases hcases with ⟨-, rfl⟩ | ⟨-, new_cap, rfl, hg, hmul⟩
  · exact ⟨hids, hwf⟩
  · refine ⟨hids', ?_⟩
    intro ch hch
    rcases mem_chunks_cases hch with hch | hch
    · rw [List.mem_append, List.mem_singleton] at hch
      refine hwf ch ?_
      rw [chunks_eq, List.mem_append, List.mem_singleton]
      exact hch
    · subst hch
      obtain ⟨hge, hle, -⟩ := grow_loop_some hmul hg
      have hcap1 : 1 ≤ c.tail.cap := (hwf c.tail (tail_mem_chunks c)).2.2.1
      have hnc : 2 ≤ new_cap := by
        obtain ⟨-, -, j, hj, -⟩ := grow_loop_some hmul hg
        have h2 : c.tail.cap * 2 ≤ c.tail.cap * 2 * 2 ^ j :=
          Nat.le_mul_of_pos_right _ (Nat.pos_pow_of_pos j (by omega))
        omega
      refine ⟨by simp [Chunk.new], by simp [Chunk.new], by simp [Chunk.new]; omega,
        by simp [Chunk.new]; omega, ?_⟩
      intro i hilen hige
      simp only [Chunk.new] at hilen ⊢
      rw [List.getElem?_replicate_of_lt (by simpa using hilen)]

theorem WF_push {α : Type} {c : Chain α} {v : α} {c' : Chain α} {p : Nat × Nat}
    (hWF : WF c) (h : push c v = some (c', p)) : WF c' := by
  obtain ⟨d, a, hr, ha, hp, hc'⟩ := push_normal_form h
  have hWFd : WF d := WF_reserve hWF hr
  have hids' : Ids c' := (Inv_push (WF_to_Inv hWF) h).1
  obtain ⟨hids, hwf⟩ := hWFd
  have havail : d.tail.len < d.tail.cap := by
    obtain ⟨-, haeq, -⟩ := reserve_spec hr
    omega
  subst hc'
  refine ⟨hids', ?_⟩
  intro ch hch
  rcases mem_chunks_cases hch with hch | hch
  · exact hwf ch (mem_chunks_of_mem_init hch)
  · subst hch
    obtain ⟨h1, h2, h3, h4, h5⟩ := hwf d.tail (tail_mem_chunks d)
    refine ⟨by simpa using h1, by dsimp only; omega, by simpa using h3, by simpa using h4, ?_⟩
    intro i hilen hige
    dsimp only at hilen hige ⊢
    simp only [List.length_set] at hilen
    rw [List.getElem?_set_ne (by omega)]
    exact h5 i hilen (by omega)

theorem WF_with_capacity {α : Type} {n : Nat} (hn : n ≤ usizeMax) :
    WF (with_capacity α n) := by
  refine ⟨(with_capacity_Inv n).1, ?_⟩
  intro ch hch
  rcases mem_chunks_cases hch with hch | hch
  · simp [with_capacity] at hch
  · subst hch
    have h1 : (1:Nat) ≤ usizeMax := by norm_num [usizeMax]
    refine ⟨by simp [with_capacity, Chunk.new], by simp [with_capacity, Chunk.new],
      by simp only [with_capacity, Chunk.new]; omega,
      by simp only [with_capacity, Chunk.new]; omega, ?_⟩
    intro i hilen hige
    simp only [with_capacity, Chunk.new] at hilen ⊢
    rw [List.getElem?_replicate_of_lt (by simpa using hilen)]

theorem mv_add_len_eq {α : Type} {c : Chain α} {n : Nat}
    (h : n + c.tail.len ≤ usizeMax) :
    MonoVec.add_len c n = some (add_len c n) := by
  simp only [MonoVec.add_len, checked_add, add_len]
  rw [if_pos h]
  have hcomm : n + c.tail.len = c.tail.len + n := Nat.add_comm n c.tail.len
  rw [hcomm]

theorem mv_push_eq_push {α : Type} {c : Chain α} (v : α) (hWF : WF c) :
    MonoVec.push c v = push c v := by
  cases hr : reserve c 1 with
  | none => simp [MonoVec.push, push, hr]
  | some res =>
    obtain ⟨d, p, a⟩ := res
    have hWFd : WF d := WF_reserve hWF hr
    obtain ⟨hp, haeq, -⟩ := reserve_spec hr
    have ha : 1 ≤ a := reserve_avail hr
    obtain ⟨-, h2, -, h4, -⟩ := hWFd.2 d.tail (tail_mem_chunks d)
    have hwlen : (writeAt d p v).tail.len = d.tail.len := by
      subst hp
      simp [writeAt]
    simp only [MonoVec.push, push, hr]
    rw [mv_add_len_eq (by rw [hwlen]; omega)]

theorem mv_pushAll_eq_pushAll {α : Type} {c : Chain α} (vs : List α) (hWF : WF c) :
    MonoVec.pushAll c vs = pushAll c vs := by
  induction vs generalizing c with
  | nil => rfl
  | cons v vs ih =>
    show (match MonoVec.push c v with
      | none => none
      | some (c', _) => MonoVec.pushAll c' vs) = _
    rw [mv_push_eq_push v hWF]
    simp only [pushAll]
    cases hpu : push c v with
    | none => rfl
    | some res =>
      obtain ⟨c2, p⟩ := res
      exact ih (WF_push hWF hpu)

end Chain

/-- Claim C1 (address stability): a value written through `push` is still
read back unchanged through the returned pointer after any sequence of
subsequent `push`/`reserve`/`add_len` operations, including ones that
allocate a new chunk; and `reserve` never modifies, resizes or relocates
any existing chunk — it either leaves the chain untouched or links one
fresh empty chunk as the new tail. -/
theorem c1_address_stability {α : Type} (c : Chain α) (v : α) (c₁ c₂ : Chain α)
    (p : Nat × Nat) (ops : List (Chain.Op α))
    (hInv : Chain.Inv c)
    (hpush : Chain.push c v = some (c₁, p))
    (hops : Chain.applyOps c₁ ops = some c₂) :
    Chain.readAt c₁ p = some v ∧ Chain.readAt c₂ p = some v ∧
      (∀ (d : Chain α) (n : Nat) (d' : Chain α) (q : Nat × Nat) (a : Nat),
        Chain.reserve d n = some (d', q, a) →
          d' = d ∨ (d'.init = d.chunks ∧ d'.tail.len = 0 ∧
            d'.tail.buf = List.replicate d'.tail.cap none ∧
            d'.nextId = d.nextId + 1)) := by
  have h1 : Chain.readAt c₁ p = some v := Chain.push_readAt_new hInv hpush
  refine ⟨h1, ?_, ?_⟩
  · exact Chain.applyOps_readAt_mono (Chain.Inv_push hInv hpush) hops p v h1
  · intro d n d' q a h
    exact Chain.reserve_shape d n d' q a h

theorem c1_address_stability_witness :
    Chain.Inv (Chain.with_capacity Nat 3) ∧
    Chain.push (Chain.with_capacity Nat 3) 10
      = some (⟨[], ⟨0, 3, 1, [some 10, none, none]⟩, 1⟩, (0, 0)) ∧
    Chain.applyOps (⟨[], ⟨0, 3, 1, [some 10, none, none]⟩, 1⟩ : Chain Nat)
        [Chain.Op.push 11, Chain.Op.reserve 1, Chain.Op.add_len 0]
      = some ⟨[], ⟨0, 3, 2, [some 10, some 11, none]⟩, 1⟩ ∧
    Chain.readAt (⟨[], ⟨0, 3, 2, [some 10, some 11, none]⟩, 1⟩ : Chain Nat) (0, 0)
      = some 10 :=
  ⟨by decide, by decide, by decide,
    (c1_address_stability (Chain.with_capacity Nat 3) 10
      ⟨[], ⟨0, 3, 1, [some 10, none, none]⟩, 1⟩
      ⟨[], ⟨0, 3, 2, [some 10, some 11, none]⟩, 1⟩ (0, 0)
      [Chain.Op.push 11, Chain.Op.reserve 1, Chain.Op.add_len 0]
      (by decide) (by decide) (by decide)).2.1⟩

/-- Claim C2 (reserve/growth policy): when the tail chunk has fewer than
`n` free slots, a successful `reserve n` creates a fresh empty tail chunk
whose capacity is the smallest `old_cap * 2 ^ k` (`k ≥ 1`) that is at
least `n`, and the returned available capacity is at least `n` — while
`reserve` aborts (checked multiplication) exactly when every adequate
capacity of that form exceeds `usizeMax`, so overflow is never silently
wrapped. -/
theorem c2_reserve_growth {α : Type} (c : Chain α) (n : Nat)
    (hWF : Chain.WF c)
    (hfree : c.tail.cap - c.tail.len < n) :
    (∀ c' p avail, Chain.reserve c n = some (c', p, avail) →
        n ≤ avail ∧
        c'.init = c.chunks ∧ c'.tail.len = 0 ∧ c'.tail.id = c.nextId ∧
        (∃ k, 1 ≤ k ∧ c'.tail.cap = c.tail.cap * 2 ^ k) ∧ n ≤ c'.tail.cap ∧
        (∀ j, 1 ≤ j → n ≤ c.tail.cap * 2 ^ j → c'.tail.cap ≤ c.tail.cap * 2 ^ j)) ∧
    (Chain.reserve c n = none ↔
      ∀ k, 1 ≤ k → n ≤ c.tail.cap * 2 ^ k → usizeMax < c.tail.cap * 2 ^ k) := by
  constructor
  · intro c' p avail h
    obtain ⟨hp, haeq, hcases⟩ := Chain.reserve_spec h
    rcases hcases with ⟨hfree', -⟩ | ⟨-, new_cap, hc', hg, hmul⟩
    · exact absurd hfree hfree'
    · obtain ⟨hge, hle, j, hj, hbelow⟩ := Chain.grow_loop_some hmul hg
      subst hc'
      refine ⟨Chain.reserve_avail h, by simp [Chain.chunks_eq], by simp [Chunk.new],
        by simp [Chunk.new],
        ⟨j + 1, by omega, by simp only [Chunk.new]; rw [hj]; ring⟩,
        by simp only [Chunk.new]; omega, ?_⟩
      intro j' hj1 hjad
      simp only [Chunk.new]
      by_cases hlt : j' - 1 < j
      · exfalso
        have hb := hbelow (j' - 1) hlt
        have heq : c.tail.cap * 2 * 2 ^ (j' - 1) = c.tail.cap * 2 ^ j' := by
          have hs : j' - 1 + 1 = j' := by omega
          calc c.tail.cap * 2 * 2 ^ (j' - 1) = c.tail.cap * 2 ^ (j' - 1 + 1) := by ring
          _ = c.tail.cap * 2 ^ j' := by rw [hs]
        omega
      · have hmono : c.tail.cap * 2 * 2 ^ j ≤ c.tail.cap * 2 * 2 ^ (j' - 1) :=
          Nat.mul_le_mul_left _ (Nat.pow_le_pow_right (by omega) (by omega))
        have heq : c.tail.cap * 2 * 2 ^ (j' - 1) = c.tail.cap * 2 ^ j' := by
          have hs : j' - 1 + 1 = j' := by omega
          calc c.tail.cap * 2 * 2 ^ (j' - 1) = c.tail.cap * 2 ^ (j' - 1 + 1) := by ring
          _ = c.tail.cap * 2 ^ j' := by rw [hs]
        omega
  · exact Chain.reserve_none_iff
      ((hWF.2 c.tail (Chain.tail_mem_chunks c)).2.2.1) hfree

theorem c2_reserve_growth_witness :
    Chain.WF (Chain.with_capacity Nat 1) ∧
    (Chain.with_capacity Nat 1).tail.cap - (Chain.with_capacity Nat 1).tail.len < 3 ∧
    (Chain.reserve (Chain.with_capacity Nat 1) 3 = none ↔
      ∀ k, 1 ≤ k → 3 ≤ (Chain.with_capacity Nat 1).tail.cap * 2 ^ k →
        usizeMax < (Chain.with_capacity Nat 1).tail.cap * 2 ^ k) :=
  ⟨by decide, by decide,
    (c2_reserve_growth (Chain.with_capacity Nat 1) 3 (by decide) (by decide)).2⟩

/-- Claim C3 (order preservation): pushing `vs` into a fresh chain and
iterating forward (`Chain::iter` / `MonoVec::items`) yields exactly `vs`
in push order, and backward iteration (`next_back`) yields exactly the
reverse. -/
theorem c3_order_preservation {α : Type} (cap : Nat) (vs : List α)
    (hcap : cap ≤ usizeMax) :
    (∀ c', Chain.pushAll (Chain.with_capacity α cap) vs = some c' →
        Chain.iterList c' = vs ∧ Chain.iterBackList c' = vs.reverse) ∧
    (∀ c', MonoVec.pushAll (Chain.with_capacity α cap) vs = some c' →
        Chain.iterList c' = vs ∧ Chain.iterBackList c' = vs.reverse) := by
  have hfwd : ∀ c', Chain.pushAll (Chain.with_capacity α cap) vs = some c' →
      Chain.iterList c' = vs ∧ Chain.iterBackList c' = vs.reverse := by
    intro c' h
    obtain ⟨h1, -⟩ := Chain.pushAll_iterList (@Chain.with_capacity_Inv α cap) h
    rw [Chain.iterList_with_capacity] at h1
    simp only [List.nil_append] at h1
    exact ⟨h1, by rw [Chain.iterBackList_eq_reverse, h1]⟩
  refine ⟨hfwd, ?_⟩
  intro c' h
  rw [Chain.mv_pushAll_eq_pushAll vs (Chain.WF_with_capacity hcap)] at h
  exact hfwd c' h

theorem c3_order_preservation_witness :
    (8:Nat) ≤ usizeMax ∧
    Chain.pushAll (Chain.with_capacity Nat 8) [10, 20, 30]
      = some ⟨[], ⟨0, 8, 3,
          [some 10, some 20, some 30, none, none, none, none, none]⟩, 1⟩ ∧
    (Chain.iterList (⟨[], ⟨0, 8, 3,
        [some 10, some 20, some 30, none, none, none, none, none]⟩, 1⟩ : Chain Nat)
      = [10, 20, 30] ∧
     Chain.iterBackList (⟨[], ⟨0, 8, 3,
        [some 10, some 20, some 30, none, none, none, none, none]⟩, 1⟩ : Chain Nat)
      = [30, 20, 10]) :=
  ⟨by decide, by decide,
    (c3_order_preservation 8 [10, 20, 30] (by decide)).1
      ⟨[], ⟨0, 8, 3, [some 10, some 20, some 30, none, none, none, none, none]⟩, 1⟩
      (by decide)⟩

namespace Chain

theorem writeAt_shape {α : Type} (c : Chain α) (p : Nat × Nat) (v : α) :
    shape (writeAt c p v) = shape c := by
  unfold writeAt shape
  by_cases h : c.tail.id = p.1
  · rw [if_pos h]
    simp [chunks_eq]
  · rw [if_neg h]
    simp only [chunks_eq, List.map_append, List.map_map]
    congr 1
    apply List.map_congr_left
    intro ch hch
    by_cases hid : ch.id = p.1 <;> simp [hid]

theorem writeSeq_shape {α : Type} (vs : List α) (c : Chain α) (p : Nat × Nat) :
    shape (writeSeq c p vs) = shape c := by
  induction vs generalizing c p with
  | nil => rfl
  | cons v vs ih =>
    show shape (writeSeq (writeAt c p v) (p.1, p.2 + 1) vs) = shape c
    rw [ih, writeAt_shape]

theorem reserve_zero {α : Type} (c : Chain α) :
    reserve c 0 = some (c, (c.tail.id, c.tail.len), c.tail.cap - c.tail.len) := by
  simp [reserve]

end Chain

/-- Claim C7 (quota shrink-back is conditional on the write cursor):
dropping a `Quota` calls `shrink_len(origin, cap, len)`, which retracts
the tail chunk's length by `cap - len` if and only if `origin + cap`
equals the chain's current tail write position; otherwise the chain is
left completely unchanged.  When the retraction happens, the next
reservation that fits in the tail is served at `origin + len`, i.e. the
unused trailing capacity is reused. -/
theorem c7_quota_shrink_back {α : Type} (c : Chain α) (q : Quota α)
    (hq : q.len ≤ q.cap) :
    (q.origin.1 = c.tail.id ∧ q.origin.2 + q.cap = c.tail.len →
      Quota.drop c q = ⟨c.init, ⟨c.tail.id, c.tail.cap,
        c.tail.len - (q.cap - q.len), c.tail.buf⟩, c.nextId⟩) ∧
    (¬ (q.origin.1 = c.tail.id ∧ q.origin.2 + q.cap = c.tail.len) →
      Quota.drop c q = c) ∧
    (q.origin.1 = c.tail.id ∧ q.origin.2 + q.cap = c.tail.len →
      c.tail.len ≤ c.tail.cap →
      ∀ n, n ≤ c.tail.cap - (q.origin.2 + q.len) →
        Chain.reserve (Quota.drop c q) n
          = some (Quota.drop c q, (c.tail.id, q.origin.2 + q.len),
              c.tail.cap - (q.origin.2 + q.len))) := by
  refine ⟨?_, ?_, ?_⟩
  · intro hcond
    have hlen : c.tail.len - q.cap + q.len = c.tail.len - (q.cap - q.len) := by
      obtain ⟨-, h2⟩ := hcond
      omega
    simp only [Quota.drop, Chain.shrink_len, if_pos hcond, hlen]
  · intro hcond
    simp only [Quota.drop, Chain.shrink_len, if_neg hcond]
  · intro hcond hlc n hn
    obtain ⟨hc1, hc2⟩ := hcond
    have hdrop : Quota.drop c q = ⟨c.init, ⟨c.tail.id, c.tail.cap,
        c.tail.len - (q.cap - q.len), c.tail.buf⟩, c.nextId⟩ := by
      have hlen : c.tail.len - q.cap + q.len = c.tail.len - (q.cap - q.len) := by omega
      simp only [Quota.drop, Chain.shrink_len, if_pos (And.intro hc1 hc2), hlen]
    rw [hdrop]
    have hfree : ¬ ((⟨c.init, ⟨c.tail.id, c.tail.cap,
        c.tail.len - (q.cap - q.len), c.tail.buf⟩, c.nextId⟩ : Chain α).tail.cap
          - (⟨c.init, ⟨c.tail.id, c.tail.cap, c.tail.len - (q.cap - q.len),
              c.tail.buf⟩, c.nextId⟩ : Chain α).tail.len < n) := by
      dsimp only
      omega
    simp only [Chain.reserve, if_neg hfree]
    simp only [Option.some.injEq, Prod.mk.injEq]
    and_intros <;> first | trivial | (dsimp only; omega)

theorem c7_quota_shrink_back_witness :
    ((⟨(0, 2), 1, 6⟩ : Quota Nat).len ≤ (⟨(0, 2), 1, 6⟩ : Quota Nat).cap ∧
      ((0:Nat), (2:Nat)).1 = (⟨[], ⟨0, 8, 8, List.replicate 8 (some 5)⟩, 1⟩ : Chain Nat).tail.id ∧
      ((0:Nat), (2:Nat)).2 + 6 = (⟨[], ⟨0, 8, 8, List.replicate 8 (some 5)⟩, 1⟩ : Chain Nat).tail.len) ∧
    Quota.drop (⟨[], ⟨0, 8, 8, List.replicate 8 (some 5)⟩, 1⟩ : Chain Nat) ⟨(0, 2), 1, 6⟩
      = ⟨[], ⟨0, 8, 8 - (6 - 1), List.replicate 8 (some 5)⟩, 1⟩ :=
  ⟨⟨by decide, by decide, by decide⟩,
    (c7_quota_shrink_back (⟨[], ⟨0, 8, 8, List.replicate 8 (some 5)⟩, 1⟩ : Chain Nat)
      ⟨(0, 2), 1, 6⟩ (by decide)).1 ⟨by decide, by decide⟩⟩

/-- Claim C9 (quota exhaustion is recoverable and non-mutating): a
`push` on a full quota hands the value back as `Err` and changes
nothing — not the chain, not the quota; `fill` copies exactly
`min(cap - len, data.len())` elements, returns that count, and advances
only the written length. -/
theorem c9_quota_exhaustion {α : Type} (c : Chain α) (q : Quota α) (v : α)
    (data : List α) :
    (q.len = q.cap → Quota.push c q v = (c, q, some v)) ∧
    (Quota.fill c q data).2.2 = min (q.cap - q.len) data.length ∧
    (Quota.fill c q data).2.1.len = q.len + min (q.cap - q.len) data.length ∧
    (Quota.fill c q data).2.1.cap = q.cap ∧
    (Quota.fill c q data).2.1.origin = q.origin := by
  refine ⟨?_, rfl, rfl, rfl, rfl⟩
  intro h
  simp [Quota.push, h.symm]

theorem c9_quota_exhaustion_witness :
    ((⟨(0, 0), 2, 2⟩ : Quota Nat).len = (⟨(0, 0), 2, 2⟩ : Quota Nat).cap) ∧
    Quota.push (⟨[], ⟨0, 1, 0, [none]⟩, 1⟩ : Chain Nat) ⟨(0, 0), 2, 2⟩ 9
      = (⟨[], ⟨0, 1, 0, [none]⟩, 1⟩, ⟨(0, 0), 2, 2⟩, some 9) ∧
    (Quota.fill (⟨[], ⟨0, 1, 0, [none]⟩, 1⟩ : Chain Nat) ⟨(0, 0), 1, 3⟩ [5, 6, 7]).2.2 = 2 :=
  ⟨by decide,
    (c9_quota_exhaustion (⟨[], ⟨0, 1, 0, [none]⟩, 1⟩ : Chain Nat)
      ⟨(0, 0), 2, 2⟩ 9 []).1 (by decide),
    (c9_quota_exhaustion (⟨[], ⟨0, 1, 0, [none]⟩, 1⟩ : Chain Nat)
      ⟨(0, 0), 1, 3⟩ 9 [5, 6, 7]).2.1⟩

/-- Claim C10 (implicit: `io::Write::write` never grows the vector): the
`write` implementations of `MonoVec<u8>` and `Chain<u8>` reserve 0 —
which never allocates — copy exactly `min(free space in the tail chunk,
buf.len())` bytes, return `Ok` of that count (in particular `Ok(0)` on a
full tail chunk), never commit a length change, and leave every chunk's
id, capacity and length unchanged. -/
theorem c10_io_write_no_growth {α : Type} (c : Chain α) (buf : List α) :
    Chain.io_write c buf
      = some (Chain.writeSeq c (c.tail.id, c.tail.len)
          (buf.take (min (c.tail.cap - c.tail.len) buf.length)),
        min (c.tail.cap - c.tail.len) buf.length) ∧
    MonoVec.io_write c buf = Chain.io_write c buf ∧
    Chain.shape (Chain.writeSeq c (c.tail.id, c.tail.len)
        (buf.take (min (c.tail.cap - c.tail.len) buf.length))) = Chain.shape c := by
  refine ⟨?_, rfl, Chain.writeSeq_shape _ c _⟩
  simp [Chain.io_write, Chain.reserve_zero]

/-- Claim C8 (code bug, evaluation at the failing input): for a type
without drop glue (`needs_drop::<T>() = false`, e.g. `u8`), `Quota::clear`
is a complete no-op — the written length stays 3 instead of being reset
to 0 — because the `self.len = 0` statement sits inside the
`if intrinsics::needs_drop::<T>()` block (zone.rs 134-146).  For a type
with drop glue the method does drop indices 0..len and reset the
length, as the claim describes. -/
theorem c8_quota_clear_eval :
    (Quota.clear false (⟨(0, 0), 3, 4⟩ : Quota Nat)).1 = ⟨(0, 0), 3, 4⟩ ∧
    (Quota.clear false (⟨(0, 0), 3, 4⟩ : Quota Nat)).1.len ≠ 0 ∧
    (Quota.clear true (⟨(0, 0), 3, 4⟩ : Quota Nat)).1.len = 0 ∧
    (Quota.clear true (⟨(0, 0), 3, 4⟩ : Quota Nat)).2 = [0, 1, 2] := by
  decide

/-- Claim C5 (code bug, evaluation at the failing input): the destructor
loop of `Chain::clear` advances `ptr.offset(size_of::<T>())` — i.e.
`size_of::<T>()` *elements* per step instead of one — so for a chunk
holding 2 elements of size 4 only element 0 is finalized, and for a
zero-sized type no element is finalized at all (which contradicts the
repository's own `drop_type` test).  `MonoVec`'s drop loop, stepping
`cur.offset(1)`, finalizes each element exactly once for any positive
size. -/
theorem c5_clear_drop_eval :
    Chain.clearChunkDropIdx 2 4 = [0] ∧
    Chain.clearChunkDropIdx 2 4 ≠ [0, 1] ∧
    Chain.clearChunkDropIdx 2 1 = [0, 1] ∧
    Chain.clearChunkDropIdx 3 0 = [] ∧
    MonoVec.dropChunkDropIdx 2 4 = [0, 1] ∧
    Chain.clearDropIdx (⟨[], ⟨0, 2, 2, [some 7, some 8]⟩, 1⟩ : Chain Nat) 4 true
      = [(0, 0)] := by
  decide

/-- Claim C6 (code bug, evaluation at the failing input): with
`size_of::<Chunk<T>>() = 32`, `size_of::<T>() = 4`,
`align_of::<Chunk<T>>() = 8`, `min_align_of::<T>() = 4`, chunks of
capacity 8 and 16 are allocated with layouts (64, 8) and (96, 8), but
`MonoVec::drop` deallocates them with `cap * size_of::<T>()` and the
element alignment — (32, 4) and (64, 4), header omitted — while
`Chain::clear` frees a non-tail chunk of length 5 with (52, 8)
(length-based, not capacity-based) and `Chain::drop` frees the final
chunk with (32, 8) (its length having been reset to 0 by `clear`). -/
theorem c6_dealloc_layout_eval :
    Chunk.allocLayout 32 4 8 8 = some (64, 8) ∧
    Chunk.allocLayout 32 4 8 16 = some (96, 8) ∧
    MonoVec.dropDeallocLayouts
        (⟨[⟨0, 8, 5, List.replicate 8 none⟩], ⟨1, 16, 3, List.replicate 16 none⟩, 2⟩
          : Chain Nat) 4 4
      = [(32, 4), (64, 4)] ∧
    Chain.clearDeallocLayouts
        (⟨[⟨0, 8, 5, List.replicate 8 none⟩], ⟨1, 16, 3, List.replicate 16 none⟩, 2⟩
          : Chain Nat) 32 4 8
      = [(52, 8)] ∧
    Chain.dropDeallocLayouts
        (⟨[⟨0, 8, 5, List.replicate 8 none⟩], ⟨1, 16, 3, List.replicate 16 none⟩, 2⟩
          : Chain Nat) 32 4 8
      = [(52, 8), (32, 8)] ∧
    ((32, 4) ≠ ((64 : Nat), (8 : Nat))) ∧ ((52, 8) ≠ ((64 : Nat), (8 : Nat))) ∧
    ((32, 8) ≠ ((96 : Nat), (8 : Nat))) := by
  decide

/-- Claim C4 counterexample: `HetVec::push` writes no stub descriptor at
all — the write trace of a push (here: entry of 3 committed bytes, no
padding words) contains no descriptor whose forward function resolves to
a null object pointer, contradicting the claimed
stub-before-construct/overwrite-after protocol. -/
theorem c4_stub_counterexample :
    HVWrite.fence true ∉ HetVec.pushWrites 3 0 := by
  decide

/-- Claim C4 amended: `HetVec::alloc`/`push` commit the entry region,
stamp the alignment padding with sentinel words, then write the *real*
(non-stub) descriptor, and only afterwards write the value bytes and
update the backward-function cell; no stub descriptor is ever written
and no overwrite happens.  Iteration and teardown do skip an entry whose
descriptor resolves to a null object pointer, so teardown finalizes
exactly the non-stub entries — and every entry created by `push` is
non-stub, hence finalized. -/
theorem c4_descriptor_order (es pw : Nat) :
    HetVec.pushWrites es pw
      = HVWrite.commitLen es :: ((List.range pw).map HVWrite.sentinel
          ++ [HVWrite.fence false, HVWrite.value, HVWrite.setBackward]) ∧
    (∀ w ∈ HetVec.pushWrites es pw, w ≠ HVWrite.fence true) ∧
    (∀ entries : List HetVec.Entry, (∀ e ∈ entries, e.objNull = false) →
      HetVec.dropFinalized entries = entries) ∧
    (∀ (e : HetVec.Entry) (rest : List HetVec.Entry), e.objNull = true →
      HetVec.dropFinalized (e :: rest) = HetVec.dropFinalized rest) := by
  have h1 : HetVec.pushWrites es pw
      = HVWrite.commitLen es :: ((List.range pw).map HVWrite.sentinel
          ++ [HVWrite.fence false, HVWrite.value, HVWrite.setBackward]) := by
    simp [HetVec.pushWrites, HetVec.allocWrites, HetVec.forwardObjIsNull]
  refine ⟨h1, ?_, ?_, ?_⟩
  · intro w hw
    rw [h1] at hw
    simp only [List.mem_cons, List.mem_append, List.mem_map, List.mem_singleton] at hw
    rcases hw with rfl | hw
    · simp
    rcases hw with ⟨i, -, rfl⟩ | hw
    · simp
    rcases hw with rfl | hw
    · simp
    rcases hw with rfl | hw
    · simp
    rcases hw with rfl | hw
    · simp
    · simp at hw
  · intro entries hall
    induction entries with
    | nil => rfl
    | cons e rest ih =>
      have he := hall e (by simp)
      have ihr := ih (fun x hx => hall x (by simp [hx]))
      simp [HetVec.dropFinalized, he, ihr]
  · intro e rest he
    simp [HetVec.dropFinalized, he]

theorem c4_descriptor_order_witness :
    (∀ e ∈ [(⟨false, 0⟩ : HetVec.Entry), ⟨false, 1⟩], e.objNull = false) ∧
    HetVec.dropFinalized [(⟨false, 0⟩ : HetVec.Entry), ⟨false, 1⟩]
      = [⟨false, 0⟩, ⟨false, 1⟩] :=
  ⟨by decide, (c4_descriptor_order 3 1).2.2.1 _ (by decide)⟩
